import Mathlib

/-!
Verification development for the AI GitHub repository analyzer.

The embedding below translates, from the TypeScript source:
  * the incremental JSON-object stream parser of `AppComponent.onAnalyzeRepo`
    (src/app.component.ts, lines 89-142): buffer management, brace-depth
    scanning, code-fence stripping, candidate extraction and emission;
  * `JSON.parse` as used on extracted candidates (a full JSON grammar);
  * `GithubService.performFetch` and `GithubService.getDefaultBranch`
    (retry with exponential backoff, permanent-error messages);
  * the orchestration state machine of `AppComponent` (resetState,
    updateStatus, handleError, and the stage flow of onAnalyzeRepo).

Strings are modelled as lists of characters (JS strings are sequences of
code units; none of the inputs considered here needs lone surrogates).
-/

/-- The character U+007B, written via its code point. -/
def lbrace : Char := Char.ofNat 123

/-- The character U+007D, written via its code point. -/
def rbrace : Char := Char.ofNat 125

/-- The backtick character U+0060. -/
def btick : Char := Char.ofNat 96

/-- JavaScript `String.prototype.trim` whitespace (the WhiteSpace and
LineTerminator productions of ECMAScript). -/
def jsWsB (c : Char) : Bool :=
  c = ' ' || c = '\t' || c = '\n' || c = '\r' || c.toNat = 11 || c.toNat = 12 ||
  c.toNat = 0xa0 || c.toNat = 0x1680 || (0x2000 ≤ c.toNat && c.toNat ≤ 0x200a) ||
  c.toNat = 0x2028 || c.toNat = 0x2029 || c.toNat = 0x202f || c.toNat = 0x205f ||
  c.toNat = 0x3000 || c.toNat = 0xfeff

/-- JavaScript `buffer.trim()` on a list of characters. -/
def jsTrim (l : List Char) : List Char :=
  ((l.dropWhile jsWsB).reverse.dropWhile jsWsB).reverse

/-- JavaScript `buffer.replace(re, '')` for the global regex matching three
backticks optionally followed by the four letters j, s, o, n
(app.component.ts line 100): scan left to right, remove each match,
continue after it.  Fuel-bounded for structural recursion; every step
consumes at least one character, so fuel equal to the length suffices. -/
def stripFencesF : Nat → List Char → List Char
  | 0, l => l
  | _ + 1, [] => []
  | f + 1, c1 :: tl =>
    match tl with
    | c2 :: c3 :: rest =>
      if c1 = btick ∧ c2 = btick ∧ c3 = btick then
        match rest with
        | j :: s :: o :: n :: rest2 =>
          if j = 'j' ∧ s = 's' ∧ o = 'o' ∧ n = 'n' then stripFencesF f rest2
          else stripFencesF f (j :: s :: o :: n :: rest2)
        | r => stripFencesF f r
      else c1 :: stripFencesF f tl
    | _ => c1 :: stripFencesF f tl

/-- The fence-stripping replace on a whole buffer. -/
def stripFences (l : List Char) : List Char := stripFencesF l.length l

/-- Lines 96-103 of app.component.ts, taken when the buffer holds no
opening brace: if the buffer also holds no closing brace, strip fence
markers and trim; then, if the (possibly updated) buffer trims to the
empty string, reset it to the empty string. -/
def noBraceResidue (buf : List Char) : List Char :=
  let b1 := if buf.contains rbrace then buf else jsTrim (stripFences buf)
  if (jsTrim b1).isEmpty then [] else b1

/-- `buffer.indexOf(lbrace)` (app.component.ts line 95), as an option. -/
def firstBrace : List Char → Option Nat
  | [] => none
  | c :: cs => if c = lbrace then some 0 else (firstBrace cs).map (· + 1)

/-- The brace-depth scan of app.component.ts lines 109-121: walk the
buffer keeping a count that a `\x7b` increments and a `\x7d` decrements;
return the index at which the count returns to zero, if any.  `i` is the
index of the head of the remaining list; `depth` is the current count. -/
def findEnd : List Char → Int → Nat → Option Nat
  | [], _, _ => none
  | c :: rest, depth, i =>
    if c = lbrace then findEnd rest (depth + 1) (i + 1)
    else if c = rbrace then
      if depth - 1 = 0 then some i else findEnd rest (depth - 1) (i + 1)
    else findEnd rest depth (i + 1)

/-! ## JSON values and `JSON.parse`

`JSON.parse` is the host primitive the component applies to each extracted
candidate (app.component.ts line 129).  The grammar below is the JSON
grammar that `JSON.parse` accepts.  Numbers are kept in their parsed parts
(sign, integer digits, fraction digits, exponent); for the one use the
component makes of a parsed value (truthiness of its `path` and `content`
properties) only whether the mathematical value is zero matters, and that
is what `truthyVal` tests.  -/

mutual
inductive JsonValue where
  | jnull : JsonValue
  | jbool : Bool → JsonValue
  | jnum : Bool → Nat → List Nat → Int → JsonValue
  | jstr : List Char → JsonValue
  | jarr : JsonArr → JsonValue
  | jobj : JsonFields → JsonValue
inductive JsonArr where
  | anil : JsonArr
  | acons : JsonValue → JsonArr → JsonArr
inductive JsonFields where
  | fnil : JsonFields
  | fcons : List Char → JsonValue → JsonFields → JsonFields
end

/-- JSON insignificant whitespace: space, tab, line feed, carriage return. -/
def skipJsonWs (s : List Char) : List Char :=
  s.dropWhile (fun c => c = ' ' || c = '\t' || c = '\n' || c = '\r')

/-- Decimal digit test. -/
def isDigitC (c : Char) : Bool := 48 ≤ c.toNat && c.toNat ≤ 57

/-- Hexadecimal digit value. -/
def hexVal (c : Char) : Option Nat :=
  if 48 ≤ c.toNat ∧ c.toNat ≤ 57 then some (c.toNat - 48)
  else if 97 ≤ c.toNat ∧ c.toNat ≤ 102 then some (c.toNat - 87)
  else if 65 ≤ c.toNat ∧ c.toNat ≤ 70 then some (c.toNat - 55)
  else none

/-- Single-character JSON string escapes. -/
def escChar (e : Char) : Option Char :=
  if e = '"' then some '"'
  else if e = '\\' then some '\\'
  else if e = '/' then some '/'
  else if e = 'b' then some (Char.ofNat 8)
  else if e = 'f' then some (Char.ofNat 12)
  else if e = 'n' then some '\n'
  else if e = 'r' then some '\r'
  else if e = 't' then some '\t'
  else none

/-- Parse the body of a JSON string literal (the opening quote already
consumed); returns the decoded characters and the input after the closing
quote.  Control characters below U+0020 are not allowed unescaped. -/
def parseString : List Char → Option (List Char × List Char)
  | [] => none
  | c :: r =>
    if c = '"' then some ([], r)
    else if c = '\\' then
      match r with
      | [] => none
      | e :: r2 =>
        if e = 'u' then
          match r2 with
          | h1 :: h2 :: h3 :: h4 :: r3 =>
            match hexVal h1, hexVal h2, hexVal h3, hexVal h4 with
            | some a, some b, some cc, some d =>
              match parseString r3 with
              | some (cs, r4) =>
                some (Char.ofNat (((a * 16 + b) * 16 + cc) * 16 + d) :: cs, r4)
              | none => none
            | _, _, _, _ => none
          | _ => none
        else
          match escChar e with
          | some ec =>
            match parseString r2 with
            | some (cs, r3) => some (ec :: cs, r3)
            | none => none
          | none => none
    else if c.toNat < 32 then none
    else
      match parseString r with
      | some (cs, r2) => some (c :: cs, r2)
      | none => none

/-- Take a maximal run of decimal digits, as digit values. -/
def takeDigits : List Char → List Nat × List Char
  | [] => ([], [])
  | c :: r =>
    if isDigitC c then
      let p := takeDigits r
      ((c.toNat - 48) :: p.1, p.2)
    else ([], c :: r)

/-- Digit list to natural number. -/
def digitsToNat (ds : List Nat) : Nat := ds.foldl (fun a d => a * 10 + d) 0

/-- Parse the optional fraction and exponent of a JSON number whose sign
and integer part are already known. -/
def parseFracExp (neg : Bool) (ip : Nat) (s : List Char) :
    Option (JsonValue × List Char) :=
  let fracStep : Option (List Nat × List Char) :=
    match s with
    | c :: r =>
      if c = '.' then
        match takeDigits r with
        | ([], _) => none
        | (ds, r2) => some (ds, r2)
      else some ([], s)
    | [] => some ([], s)
  match fracStep with
  | none => none
  | some (fp, s2) =>
    match s2 with
    | c :: r =>
      if c = 'e' || c = 'E' then
        let sgn : Bool × List Char :=
          match r with
          | d :: r2 =>
            if d = '+' then (false, r2)
            else if d = '-' then (true, r2)
            else (false, d :: r2)
          | [] => (false, [])
        match takeDigits sgn.2 with
        | ([], _) => none
        | (ds, r2) =>
          let en : Int := Int.ofNat (digitsToNat ds)
          some (.jnum neg ip fp (if sgn.1 then -en else en), r2)
      else some (.jnum neg ip fp 0, c :: r)
    | [] => some (.jnum neg ip fp 0, [])

/-- Parse a JSON number.  The JSON grammar's integer part is a single `0`
or a nonzero digit followed by digits; a leading zero followed by another
digit leaves that digit unconsumed, which makes every surrounding context
reject it, exactly as `JSON.parse` rejects the number itself. -/
def parseNumber (s : List Char) : Option (JsonValue × List Char) :=
  let sgn : Bool × List Char :=
    match s with
    | c :: r => if c = '-' then (true, r) else (false, c :: r)
    | [] => (false, [])
  match sgn.2 with
  | c :: r =>
    if c = '0' then parseFracExp sgn.1 0 r
    else if isDigitC c then
      let p := takeDigits r
      parseFracExp sgn.1 (digitsToNat ((c.toNat - 48) :: p.1)) p.2
    else none
  | [] => none

mutual
/-- Parse one JSON value, fuel-bounded; whitespace before the value is
skipped, whitespace after it is left for the caller. -/
def parseValue : Nat → List Char → Option (JsonValue × List Char)
  | 0, _ => none
  | f + 1, s =>
    match skipJsonWs s with
    | [] => none
    | c :: r =>
      if c = lbrace then
        match skipJsonWs r with
        | c2 :: r2 =>
          if c2 = rbrace then some (.jobj .fnil, r2)
          else
            match parseFields f (c2 :: r2) with
            | some (fs, r3) => some (.jobj fs, r3)
            | none => none
        | [] => none
      else if c = '[' then
        match skipJsonWs r with
        | c2 :: r2 =>
          if c2 = ']' then some (.jarr .anil, r2)
          else
            match parseElems f (c2 :: r2) with
            | some (xs, r3) => some (.jarr xs, r3)
            | none => none
        | [] => none
      else if c = '"' then
        match parseString r with
        | some (cs, r2) => some (.jstr cs, r2)
        | none => none
      else if c = 't' then
        match r with
        | 'r' :: 'u' :: 'e' :: r2 => some (.jbool true, r2)
        | _ => none
      else if c = 'f' then
        match r with
        | 'a' :: 'l' :: 's' :: 'e' :: r2 => some (.jbool false, r2)
        | _ => none
      else if c = 'n' then
        match r with
        | 'u' :: 'l' :: 'l' :: r2 => some (.jnull, r2)
        | _ => none
      else if c = '-' || isDigitC c then parseNumber (c :: r)
      else none

/-- Parse a nonempty `"key": value` sequence up to and including the
closing brace of the object. -/
def parseFields : Nat → List Char → Option (JsonFields × List Char)
  | 0, _ => none
  | f + 1, s =>
    match skipJsonWs s with
    | c :: r =>
      if c = '"' then
        match parseString r with
        | some (k, r2) =>
          match skipJsonWs r2 with
          | c2 :: r3 =>
            if c2 = ':' then
              match parseValue f r3 with
              | some (v, r4) =>
                match skipJsonWs r4 with
                | c3 :: r5 =>
                  if c3 = ',' then
                    match parseFields f r5 with
                    | some (fs, r6) => some (.fcons k v fs, r6)
                    | none => none
                  else if c3 = rbrace then some (.fcons k v .fnil, r5)
                  else none
                | [] => none
              | none => none
            else none
          | [] => none
        | none => none
      else none
    | [] => none

/-- Parse a nonempty element sequence up to and including the closing
bracket of the array. -/
def parseElems : Nat → List Char → Option (JsonArr × List Char)
  | 0, _ => none
  | f + 1, s =>
    match parseValue f s with
    | some (v, r) =>
      match skipJsonWs r with
      | c :: r2 =>
        if c = ',' then
          match parseElems f r2 with
          | some (xs, r3) => some (.acons v xs, r3)
          | none => none
        else if c = ']' then some (.acons v .anil, r2)
        else none
      | [] => none
    | none => none
end

/-- `JSON.parse` on a whole string: one value, then only whitespace.  Every
recursive descent step consumes at least one character per two units of
fuel, so `2 * length + 2` fuel never runs out before an answer. -/
def jsonParse (s : List Char) : Option JsonValue :=
  match parseValue (2 * s.length + 2) s with
  | some (v, rest) => if (skipJsonWs rest).isEmpty then some v else none
  | none => none

/-- Property lookup on the object `JSON.parse` builds: later duplicate
keys overwrite earlier ones, so the last matching key wins. -/
def fieldsGet : JsonFields → List Char → Option JsonValue
  | .fnil, _ => none
  | .fcons k v tl, key =>
    match fieldsGet tl key with
    | some w => some w
    | none => if k = key then some v else none

/-- JavaScript property access `v.key` on a parsed value; non-objects have
no own `path` or `content` property, giving undefined. -/
def jsGetField (v : JsonValue) (key : List Char) : Option JsonValue :=
  match v with
  | .jobj fs => fieldsGet fs key
  | _ => none

/-- JavaScript truthiness of a value parsed from JSON.  A number is falsy
exactly when its mathematical value is zero (JSON literals cannot denote
NaN; exponents so negative that the value underflows to floating-point
zero are not modelled). -/
def truthyVal : JsonValue → Bool
  | .jnull => false
  | .jbool b => b
  | .jstr s => !s.isEmpty
  | .jnum _ ip fp _ => !(ip = 0 && fp.all (fun d => d = 0))
  | .jarr _ => true
  | .jobj _ => true

/-- Truthiness of a possibly-undefined property. -/
def truthyProp : Option JsonValue → Bool
  | none => false
  | some v => truthyVal v

/-- The characters of the property name `path`. -/
def pathKey : List Char := String.toList "path"

/-- The characters of the property name `content`. -/
def contentKey : List Char := String.toList "content"

/-- Lines 128-135 of app.component.ts: `JSON.parse` the candidate inside a
try/catch; on success push the parsed value when both `file.path` and
`file.content` are truthy; a parse exception is caught and logged, the
candidate is dropped. -/
def emitCandidate (s : List Char) : Option JsonValue :=
  match jsonParse s with
  | some v =>
    if truthyProp (jsGetField v pathKey) && truthyProp (jsGetField v contentKey)
    then some v else none
  | none => none

/-- One extraction pass of the while loop (app.component.ts lines 94-141),
fuel-bounded: find the first opening brace (discarding noise handling when
there is none), drop everything before it, brace-scan for the end of the
candidate; a complete candidate is cut off, possibly emitted, and the pass
continues on the remainder; an incomplete one stops the pass.  Returns the
final buffer and the values emitted by this pass, in order.  Every
iteration with a complete candidate consumes at least one character, so
fuel `length + 1` never runs out. -/
def extractF : Nat → List Char → List Char × List JsonValue
  | 0, buf => (buf, [])
  | fuel + 1, buf =>
    match firstBrace buf with
    | none => (noBraceResidue buf, [])
    | some i =>
      let b := buf.drop i
      match findEnd b 0 0 with
      | none => (b, [])
      | some e =>
        let p := extractF fuel (b.drop (e + 1))
        (p.1, (emitCandidate (b.take (e + 1))).toList ++ p.2)

/-- The extraction pass on a buffer. -/
def extract (buf : List Char) : List Char × List JsonValue :=
  extractF (buf.length + 1) buf

/-- Parser state across chunks: the accumulated buffer and the emitted
records (the component's `reimplementedFiles` accumulation). -/
structure PState where
  buf : List Char
  out : List JsonValue

/-- Receiving one chunk (lines 90-92 and the loop): append the chunk text
to the buffer, then run the extraction pass. -/
def step (st : PState) (chunk : List Char) : PState :=
  let p := extract (st.buf ++ chunk)
  ⟨p.1, st.out ++ p.2⟩

/-- Feed a list of chunks to the parser from a given state. -/
def runChunks0 (st : PState) : List (List Char) → PState
  | [] => st
  | c :: cs => runChunks0 (step st c) cs

/-- Feed a list of chunks to the parser from the initial state (empty
buffer, no emitted records). -/
def runChunks (cs : List (List Char)) : PState := runChunks0 ⟨[], []⟩ cs

/-- Stream end (lines 142-147): the loop simply terminates, the leftover
buffer is dropped, the accumulated records are the result; no failure is
possible here. -/
def streamEnd (st : PState) : Except String (List JsonValue) :=
  Except.ok st.out

/-! ## GithubService: performFetch and getDefaultBranch

`performFetch` (github.service.ts lines 39-71) wraps the host `fetch`.
The environment is modelled as a function from the attempt index to what
that `fetch` call does: deliver a response with some status, throw the
`TypeError` whose message is `Failed to fetch`, or throw something else.
`performFetch` returns the outcome (a returned response's status or a
thrown message), the number of `fetch` calls performed, and the list of
backoff waits in order. -/

inductive FetchOutcome where
  | resp : Nat → FetchOutcome
  | netFail : FetchOutcome
  | thrown : String → FetchOutcome

inductive FetchResult where
  | ok : Nat → FetchResult
  | err : String → FetchResult
deriving DecidableEq

/-- The user-facing message thrown when network retries are exhausted
(github.service.ts lines 58-66; the explanatory list is abbreviated). -/
def networkErrMsg : String :=
  "A network error occurred trying to contact the GitHub API."

/-- github.service.ts lines 39-71.  A response with status at least 500 is
retried while retries remain, after a wait of the current backoff, with the
backoff doubled; a `Failed to fetch` network error likewise; any other
response is returned as is; any other exception is rethrown; an exhausted
network error throws the user-facing network message. -/
def performFetch (f : Nat → FetchOutcome) : Nat → Nat → Nat → FetchResult × Nat × List Nat
  | i, 0, _ =>
    match f i with
    | .resp s => (.ok s, 1, [])
    | .netFail => (.err networkErrMsg, 1, [])
    | .thrown m => (.err m, 1, [])
  | i, retries + 1, backoff =>
    match f i with
    | .resp s =>
      if 500 ≤ s then
        let r := performFetch f (i + 1) retries (backoff * 2)
        (r.1, r.2.1 + 1, backoff :: r.2.2)
      else (.ok s, 1, [])
    | .netFail =>
      let r := performFetch f (i + 1) retries (backoff * 2)
      (r.1, r.2.1 + 1, backoff :: r.2.2)
    | .thrown m => (.err m, 1, [])

def rateLimitMsg : String :=
  "GitHub API rate limit exceeded. Please provide a Personal Access Token to continue."

def notFoundMsg : String :=
  "Repository not found. It may be private or spelled incorrectly."

def badTokenMsg : String :=
  "The provided GitHub token is invalid or expired."

/-- The generic failure message of getDefaultBranch (the interpolated
status and status text are not reproduced). -/
def repoDetailsMsg : String :=
  "Failed to fetch repository details."

def noBranchMsg : String :=
  "Could not determine the default branch for the repository."

/-- github.service.ts lines 73-95: fetch the repository details with the
default arguments (3 retries, 300ms base backoff); a non-ok response maps
status 403, 404 and 401 to their distinct messages, anything else to the
generic one; an ok response yields the default branch of the body, which
the environment supplies as `db` (none when the field is missing). -/
def getDefaultBranch (f : Nat → FetchOutcome) (db : Option String) :
    Except String String × Nat × List Nat :=
  let r := performFetch f 0 3 300
  match r.1 with
  | .err m => (.error m, r.2.1, r.2.2)
  | .ok status =>
    if 200 ≤ status ∧ status < 300 then
      match db with
      | some b => (.ok b, r.2.1, r.2.2)
      | none => (.error noBranchMsg, r.2.1, r.2.2)
    else if status = 403 then (.error rateLimitMsg, r.2.1, r.2.2)
    else if status = 404 then (.error notFoundMsg, r.2.1, r.2.2)
    else if status = 401 then (.error badTokenMsg, r.2.1, r.2.2)
    else (.error repoDetailsMsg, r.2.1, r.2.2)

/-! ## The orchestration state machine of AppComponent -/

/-- A fetched repository file (github.service.ts RepoFile). -/
structure RepoFile where
  path : String
  content : String
deriving DecidableEq

inductive AppState where
  | idle | loading | analyzed | reimplemented | error
deriving DecidableEq

inductive StStatus where
  | pending | inProgress | complete | error
deriving DecidableEq

/-- One entry of the `statusSteps` signal. -/
structure StatusStep where
  id : Nat
  text : String
  status : StStatus
deriving DecidableEq

/-- The five steps as initialised (app.component.ts lines 36-42 and the
reset list of lines 177-183, which are identical). -/
def initialSteps : List StatusStep :=
  [⟨1, "Download and read all repository files", .pending⟩,
   ⟨2, "AI selects relevant files for analysis", .pending⟩,
   ⟨3, "AI analyzes code architecture", .pending⟩,
   ⟨4, "AI re-implements the project", .pending⟩,
   ⟨5, "Ready for download", .pending⟩]

/-- The component state touched by a run (the signals of
app.component.ts lines 29-42; the url and token inputs are inputs of the
run, not part of the evolving state modelled here). -/
structure AppModel where
  appState : AppState
  errorMessage : Option String
  analysisResult : Option String
  reimplementedFiles : Option (List JsonValue)
  fetchedFiles : Option (List RepoFile)
  expandedFile : Option String
  statusSteps : List StatusStep

/-- The state at component construction. -/
def initialModel : AppModel :=
  ⟨.idle, none, none, none, none, none, initialSteps⟩

/-- app.component.ts lines 170-184. -/
def resetState (m : AppModel) : AppModel :=
  { m with appState := .idle, errorMessage := none, analysisResult := none,
           reimplementedFiles := none, fetchedFiles := none,
           expandedFile := none, statusSteps := initialSteps }

/-- app.component.ts lines 186-190. -/
def updateStatus (m : AppModel) (id : Nat) (st : StStatus) : AppModel :=
  { m with statusSteps :=
      m.statusSteps.map (fun s => if s.id = id then { s with status := st } else s) }

/-- Whether a step is in progress, as the `find?` predicate of line 195. -/
def isInProgressStep (s : StatusStep) : Bool :=
  match s.status with
  | .inProgress => true
  | _ => false

/-- app.component.ts lines 192-199: set the app state to error, record the
message, and mark the first in-progress step (if any) as error. -/
def handleError (m : AppModel) (msg : String) : AppModel :=
  let m1 := { m with appState := .error, errorMessage := some msg }
  match m.statusSteps.find? isInProgressStep with
  | some s => updateStatus m1 s.id .error
  | none => m1

def emptyRepoMsg : String :=
  "Repository appears to be empty or contains no readable files."

def urlPromptMsg : String :=
  "Please enter a valid GitHub repository URL."

/-- The outcomes of the external calls a run makes, in order.  `urlParse`
is the outcome of `parseGithubUrl` (URL parsing is done by the host URL
class); `repoFiles` of `getRepoFiles`; `relevant` of `selectRelevantFiles`;
the two streams deliver their chunks and then either end cleanly
(`analysisErr`/`reimplErr` = none) or raise. -/
structure Env where
  url : String
  urlParse : Except String Unit
  repoFiles : Except String (List RepoFile)
  relevant : Except String (List String)
  analysisChunks : List String
  analysisErr : Option String
  reimplChunks : List (List Char)
  reimplErr : Option String

/-- `onAnalyzeRepo` (app.component.ts lines 44-154) as a list of model
snapshots, newest first, one per signal mutation; the two streaming
for-loops mutate only the accumulated data (`analysisResult`, resp. the
buffer and `reimplementedFiles`), never the status steps, and are folded
into the single snapshot holding their accumulated result.  A thrown error
at any await lands in the catch block, i.e. in `handleError`. -/
def runTrace (env : Env) : List AppModel :=
  let t0 := [initialModel]
  if env.url = "" then handleError initialModel urlPromptMsg :: t0
  else
    let m1 := resetState initialModel
    let m2 := { m1 with appState := .loading }
    let t := m2 :: m1 :: t0
    match env.urlParse with
    | .error e => handleError m2 e :: t
    | .ok _ =>
      let m3 := updateStatus m2 1 .inProgress
      let t := m3 :: t
      match env.repoFiles with
      | .error e => handleError m3 e :: t
      | .ok allFiles =>
        let m4 := updateStatus m3 1 .complete
        let t := m4 :: t
        if allFiles.length = 0 then handleError m4 emptyRepoMsg :: t
        else
          let m5 := updateStatus m4 2 .inProgress
          let t := m5 :: t
          match env.relevant with
          | .error e => handleError m5 e :: t
          | .ok relevantPaths =>
            let m6 := updateStatus m5 2 .complete
            let ff := allFiles.filter (fun f => relevantPaths.contains f.path)
            let m7 := { m6 with fetchedFiles := some ff }
            let m8 := updateStatus m7 3 .inProgress
            let ar := env.analysisChunks.foldl (fun a c => a ++ c) ""
            let m9 := { m8 with analysisResult := some ar }
            let t := m9 :: m8 :: m7 :: m6 :: t
            match env.analysisErr with
            | some e => handleError m9 e :: t
            | none =>
              let mA := updateStatus m9 3 .complete
              let mB := { mA with appState := .analyzed }
              let mC := updateStatus mB 4 .inProgress
              let rf := (runChunks0 ⟨[], []⟩ env.reimplChunks).out
              let mD := { mC with reimplementedFiles := some rf }
              let t := mD :: mC :: mB :: mA :: t
              match env.reimplErr with
              | some e => handleError mD e :: t
              | none =>
                let mE := updateStatus mD 4 .complete
                let mF := updateStatus mE 5 .complete
                let mG := { mF with appState := .reimplemented }
                mG :: mF :: mE :: t

/-- The final model of a run. -/
def runFinal (env : Env) : AppModel :=
  match runTrace env with
  | m :: _ => m
  | [] => initialModel

/-- The status of the step with the given id in a step list. -/
def stepStatus (steps : List StatusStep) (id : Nat) : StStatus :=
  match steps.find? (fun s => decide (s.id = id)) with
  | some s => s.status
  | none => .pending

/-- The chronological sequence of statuses of one stage over a run. -/
def stageTrace (env : Env) (id : Nat) : List StStatus :=
  (runTrace env).reverse.map (fun m => stepStatus m.statusSteps id)

/-! ## Lemmas about the buffer scan -/

theorem firstBrace_some_lt : ∀ {l : List Char} {i : Nat},
    firstBrace l = some i → i < l.length := by
  intro l
  induction l with
  | nil => intro i h; simp [firstBrace] at h
  | cons c cs ih =>
    intro i h
    simp only [firstBrace] at h
    split at h
    · cases h; simp
    · cases hfb : firstBrace cs with
      | none => rw [hfb] at h; simp at h
      | some j =>
        rw [hfb] at h
        simp only [Option.map_some'] at h
        cases h
        have := ih hfb
        simp only [List.length_cons]
        omega

theorem firstBrace_none_iff : ∀ (l : List Char),
    firstBrace l = none ↔ lbrace ∉ l := by
  intro l
  induction l with
  | nil => simp [firstBrace]
  | cons c cs ih =>
    simp only [firstBrace, List.mem_cons]
    by_cases hc : c = lbrace
    · rw [if_pos hc]
      simp [hc]
    · rw [if_neg hc]
      cases hfb : firstBrace cs with
      | none =>
        simp only [Option.map_none']
        constructor
        · intro _ hor
          rcases hor with h1 | h1
          · exact hc h1.symm
          · exact (ih.mp hfb) h1
        · intro _; trivial
      | some j =>
        simp only [Option.map_some']
        constructor
        · intro hcon; exact absurd hcon (by simp)
        · intro hnot
          exfalso
          apply hnot
          right
          by_contra hmem
          rw [ih.mpr hmem] at hfb
          exact Option.noConfusion hfb

theorem firstBrace_drop : ∀ {l : List Char} {i : Nat},
    firstBrace l = some i → ∃ t, l.drop i = lbrace :: t := by
  intro l
  induction l with
  | nil => intro i h; simp [firstBrace] at h
  | cons c cs ih =>
    intro i h
    simp only [firstBrace] at h
    split at h
    · next hc => cases h; exact ⟨cs, by simp [hc]⟩
    · cases hfb : firstBrace cs with
      | none => rw [hfb] at h; simp at h
      | some j =>
        rw [hfb] at h
        simp only [Option.map_some'] at h
        cases h
        obtain ⟨t, ht⟩ := ih hfb
        exact ⟨t, by simpa using ht⟩

theorem firstBrace_append_some : ∀ {l : List Char} {i : Nat} (v : List Char),
    firstBrace l = some i → firstBrace (l ++ v) = some i := by
  intro l
  induction l with
  | nil => intro i v h; simp [firstBrace] at h
  | cons c cs ih =>
    intro i v h
    simp only [firstBrace] at h ⊢
    split at h
    · next hc => cases h; simp [hc]
    · next hc =>
      cases hfb : firstBrace cs with
      | none => rw [hfb] at h; simp at h
      | some j =>
        rw [hfb] at h
        simp only [Option.map_some'] at h
        cases h
        rw [if_neg hc]
        simp only [List.append_eq]
        rw [ih v hfb]
        rfl

theorem firstBrace_append_none : ∀ {l : List Char} (v : List Char),
    firstBrace l = none →
    firstBrace (l ++ v) = (firstBrace v).map (l.length + ·) := by
  intro l
  induction l with
  | nil =>
    intro v _
    simp only [List.nil_append, List.length_nil]
    cases firstBrace v <;> simp
  | cons c cs ih =>
    intro v h
    simp only [firstBrace] at h
    split at h
    · exact absurd h (by simp)
    · next hc =>
      have hcs : firstBrace cs = none := by
        cases hfb : firstBrace cs
        · rfl
        · rw [hfb] at h; simp at h
      rw [List.cons_append]
      simp only [firstBrace]
      rw [if_neg hc, ih v hcs]
      cases firstBrace v with
      | none => rfl
      | some j => simp [List.length_cons]; omega

theorem findEnd_some_bound : ∀ (l : List Char) (d : Int) (i j : Nat),
    findEnd l d i = some j → j < i + l.length := by
  intro l
  induction l with
  | nil => intro d i j h; simp [findEnd] at h
  | cons c r ih =>
    intro d i j h
    simp only [findEnd] at h
    split at h
    · have := ih _ _ _ h; simp only [List.length_cons]; omega
    · split at h
      · split at h
        · cases h; simp only [List.length_cons]; omega
        · have := ih _ _ _ h; simp only [List.length_cons]; omega
      · have := ih _ _ _ h; simp only [List.length_cons]; omega

theorem findEnd_append_some : ∀ (l v : List Char) (d : Int) (i j : Nat),
    findEnd l d i = some j → findEnd (l ++ v) d i = some j := by
  intro l
  induction l with
  | nil => intro v d i j h; simp [findEnd] at h
  | cons c r ih =>
    intro v d i j h
    rw [List.cons_append]
    simp only [findEnd] at h ⊢
    split at h
    · next hc => rw [if_pos hc]; exact ih _ _ _ _ h
    · next hc =>
      rw [if_neg hc]
      split at h
      · next hc2 =>
        rw [if_pos hc2]
        split at h
        · next hd => rw [if_pos hd]; exact h
        · next hd => rw [if_neg hd]; exact ih _ _ _ _ h
      · next hc2 => rw [if_neg hc2]; exact ih _ _ _ _ h

theorem stripFencesF_nil : ∀ (f : Nat), stripFencesF f [] = [] := by
  intro f; cases f <;> rfl

theorem mem_stripFencesF (f : Nat) (l : List Char) (c : Char) :
    c ∈ stripFencesF f l → c ∈ l := by
  induction f, l using stripFencesF.induct <;>
    intro h <;>
    simp only [stripFencesF, stripFencesF_nil] at h <;>
    (repeat' split at h) <;>
    simp_all <;>
    tauto

theorem mem_jsTrim (l : List Char) (c : Char) (h : c ∈ jsTrim l) : c ∈ l := by
  unfold jsTrim at h
  rw [List.mem_reverse] at h
  have h2 := (List.dropWhile_sublist jsWsB).subset h
  rw [List.mem_reverse] at h2
  exact (List.dropWhile_sublist jsWsB).subset h2

theorem mem_noBraceResidue (l : List Char) (c : Char)
    (h : c ∈ noBraceResidue l) : c ∈ l := by
  by_cases hc : l.contains rbrace
  · simp only [noBraceResidue, if_pos hc] at h
    split at h
    · simp at h
    · exact h
  · simp only [noBraceResidue, if_neg hc] at h
    split at h
    · simp at h
    · exact mem_stripFencesF _ _ _ (mem_jsTrim _ _ h)

theorem firstBrace_noBraceResidue {l : List Char}
    (h : firstBrace l = none) : firstBrace (noBraceResidue l) = none := by
  rw [firstBrace_none_iff] at h ⊢
  intro hmem
  exact h (mem_noBraceResidue l lbrace hmem)

/-! ## The extraction pass: fuel irrelevance and unfolding -/

theorem extractF_congr : ∀ (n f g : Nat) (buf : List Char),
    buf.length ≤ n → buf.length < f → buf.length < g →
    extractF f buf = extractF g buf := by
  intro n
  induction n with
  | zero =>
    intro f g buf hn hf hg
    have hb : buf = [] := List.eq_nil_of_length_eq_zero (Nat.le_zero.mp hn)
    subst hb
    match f, hf with
    | f + 1, _ =>
      match g, hg with
      | g + 1, _ => simp [extractF, firstBrace]
  | succ n ih =>
    intro f g buf hn hf hg
    match f, hf with
    | f + 1, _ =>
      match g, hg with
      | g + 1, _ =>
        simp only [extractF]
        split
        · rfl
        · next i hfb =>
          split
          · rfl
          · next e hfe =>
            have hi := firstBrace_some_lt hfb
            have he := findEnd_some_bound (buf.drop i) 0 0 e hfe
            simp only [List.length_drop, Nat.zero_add] at he
            have heq := ih f g ((buf.drop i).drop (e + 1))
              (by simp only [List.length_drop]; omega)
              (by simp only [List.length_drop]; omega)
              (by simp only [List.length_drop]; omega)
            rw [heq]

theorem extract_eq_noBrace {buf : List Char} (h : firstBrace buf = none) :
    extract buf = (noBraceResidue buf, []) := by
  simp [extract, extractF, h]

theorem extract_eq_incomplete {buf : List Char} {i : Nat}
    (h1 : firstBrace buf = some i) (h2 : findEnd (buf.drop i) 0 0 = none) :
    extract buf = (buf.drop i, []) := by
  simp [extract, extractF, h1, h2]

theorem extract_eq_candidate {buf : List Char} {i e : Nat}
    (h1 : firstBrace buf = some i) (h2 : findEnd (buf.drop i) 0 0 = some e) :
    extract buf = ((extract ((buf.drop i).drop (e + 1))).1,
      (emitCandidate ((buf.drop i).take (e + 1))).toList ++
        (extract ((buf.drop i).drop (e + 1))).2) := by
  have hi := firstBrace_some_lt h1
  have he := findEnd_some_bound (buf.drop i) 0 0 e h2
  simp only [List.length_drop, Nat.zero_add] at he
  have hlen : ((buf.drop i).drop (e + 1)).length < buf.length := by
    simp only [List.length_drop]
    omega
  show extractF (buf.length + 1) buf = _
  simp only [extractF, h1, h2]
  have heq := extractF_congr (((buf.drop i).drop (e + 1)).length)
    buf.length (((buf.drop i).drop (e + 1)).length + 1) ((buf.drop i).drop (e + 1))
    le_rfl (by omega) (by omega)
  rw [heq]
  rfl

/-- The key decomposition: one extraction pass over `b ++ v` emits exactly
what a pass over `b` emits followed by what a pass over the residue of `b`
with `v` appended emits.  This is what makes the chunked parser agree with
parsing the concatenated text. -/
theorem extract_split : ∀ (n : Nat) (b v : List Char), b.length ≤ n →
    (extract (b ++ v)).2 = (extract b).2 ++ (extract ((extract b).1 ++ v)).2 := by
  intro n
  induction n with
  | zero =>
    intro b v hb
    have hbnil : b = [] := List.eq_nil_of_length_eq_zero (Nat.le_zero.mp hb)
    subst hbnil
    have h0 : extract ([] : List Char) = ([], []) := rfl
    simp [h0]
  | succ n ih =>
    intro b v hb
    cases hfb : firstBrace b with
    | none =>
      rw [extract_eq_noBrace hfb]
      have hnb : firstBrace (noBraceResidue b) = none :=
        firstBrace_noBraceResidue hfb
      cases hfv : firstBrace v with
      | none =>
        have hbv : firstBrace (b ++ v) = none := by
          rw [firstBrace_append_none v hfb, hfv]; rfl
        have hnv : firstBrace (noBraceResidue b ++ v) = none := by
          rw [firstBrace_append_none v hnb, hfv]; rfl
        rw [extract_eq_noBrace hbv]
        rw [extract_eq_noBrace hnv]
        rfl
      | some j =>
        have h1 : firstBrace (b ++ v) = some (b.length + j) := by
          rw [firstBrace_append_none v hfb, hfv]; rfl
        have h2 : firstBrace (noBraceResidue b ++ v) =
            some ((noBraceResidue b).length + j) := by
          rw [firstBrace_append_none v hnb, hfv]; rfl
        have hd1 : (b ++ v).drop (b.length + j) = v.drop j := List.drop_append j
        have hd2 : (noBraceResidue b ++ v).drop ((noBraceResidue b).length + j) =
            v.drop j := List.drop_append j
        cases hfe : findEnd (v.drop j) 0 0 with
        | none =>
          rw [extract_eq_incomplete h1 (by rw [hd1]; exact hfe)]
          rw [extract_eq_incomplete h2 (by rw [hd2]; exact hfe)]
          rfl
        | some e =>
          rw [extract_eq_candidate h1 (by rw [hd1]; exact hfe)]
          rw [extract_eq_candidate h2 (by rw [hd2]; exact hfe)]
          rw [hd1, hd2]
          rfl
    | some i =>
      obtain ⟨t, ht⟩ := firstBrace_drop hfb
      have hi := firstBrace_some_lt hfb
      have h1 : firstBrace (b ++ v) = some i := firstBrace_append_some v hfb
      have hdrop : (b ++ v).drop i = b.drop i ++ v :=
        List.drop_append_of_le_length (Nat.le_of_lt hi)
      cases hfe : findEnd (b.drop i) 0 0 with
      | none =>
        rw [extract_eq_incomplete hfb hfe]
        have h0 : firstBrace (b.drop i ++ v) = some 0 := by
          rw [ht]; simp [firstBrace]
        have hdz : (b.drop i ++ v).drop 0 = b.drop i ++ v := List.drop_zero _
        cases hfe2 : findEnd (b.drop i ++ v) 0 0 with
        | none =>
          rw [extract_eq_incomplete h1 (by rw [hdrop]; exact hfe2)]
          rw [extract_eq_incomplete h0 (by rw [hdz]; exact hfe2)]
          rfl
        | some e =>
          rw [extract_eq_candidate h1 (by rw [hdrop]; exact hfe2)]
          rw [extract_eq_candidate h0 (by rw [hdz]; exact hfe2)]
          rw [hdrop, hdz]
          rfl
      | some e =>
        have he := findEnd_some_bound (b.drop i) 0 0 e hfe
        simp only [List.length_drop, Nat.zero_add] at he
        have hee : e + 1 ≤ (b.drop i).length := by
          simp only [List.length_drop]; omega
        have hfe2 : findEnd ((b ++ v).drop i) 0 0 = some e := by
          rw [hdrop]; exact findEnd_append_some _ v _ _ _ hfe
        rw [extract_eq_candidate h1 hfe2]
        rw [extract_eq_candidate hfb hfe]
        have htake : ((b ++ v).drop i).take (e + 1) = (b.drop i).take (e + 1) := by
          rw [hdrop]; exact List.take_append_of_le_length hee
        have hdrop2 : ((b ++ v).drop i).drop (e + 1) =
            (b.drop i).drop (e + 1) ++ v := by
          rw [hdrop]; exact List.drop_append_of_le_length hee
        rw [htake, hdrop2]
        have hrest : ((b.drop i).drop (e + 1)).length ≤ n := by
          simp only [List.length_drop]
          omega
        rw [ih ((b.drop i).drop (e + 1)) v hrest]
        simp [List.append_assoc]

theorem runChunks0_cons_out : ∀ (cs : List (List Char)) (c : List Char) (st : PState),
    (runChunks0 st (c :: cs)).out = st.out ++ (extract (st.buf ++ (c :: cs).flatten)).2 := by
  intro cs
  induction cs with
  | nil =>
    intro c st
    simp [runChunks0, step, List.flatten]
  | cons c2 cs ih =>
    intro c st
    show (runChunks0 (step st c) (c2 :: cs)).out = _
    rw [ih c2 (step st c)]
    simp only [step]
    have hj : st.buf ++ (c :: c2 :: cs).flatten = (st.buf ++ c) ++ (c2 :: cs).flatten := by
      simp [List.flatten]
    rw [hj, extract_split (st.buf ++ c).length (st.buf ++ c) ((c2 :: cs).flatten) le_rfl]
    simp [List.append_assoc]

/-- Chunked processing emits exactly the single-pass extraction of the
concatenated text. -/
theorem runChunks_out_join : ∀ (cs : List (List Char)),
    (runChunks cs).out = (extract cs.flatten).2 := by
  intro cs
  cases cs with
  | nil => rfl
  | cons c cs =>
    show (runChunks0 ⟨[], []⟩ (c :: cs)).out = _
    rw [runChunks0_cons_out cs c ⟨[], []⟩]
    simp

/-! ## Claim C1 -/

/-- The chunk sequence of the spec scenario: a single JSON object split
mid-string, and a second object split mid-object. -/
def scenarioChunks : List (List Char) :=
  [String.toList "\x7b\"path\":\"a.",
   String.toList "ts\",\"content\":\"x\"\x7d\n\x7b\"path\":\"b.ts\",",
   String.toList "\"content\":\"y\"\x7d"]

/-- The record for a.ts as `JSON.parse` builds it. -/
def recScenA : JsonValue :=
  .jobj (.fcons pathKey (.jstr (String.toList "a.ts"))
    (.fcons contentKey (.jstr (String.toList "x")) .fnil))

/-- The record for b.ts as `JSON.parse` builds it. -/
def recScenB : JsonValue :=
  .jobj (.fcons pathKey (.jstr (String.toList "b.ts"))
    (.fcons contentKey (.jstr (String.toList "y")) .fnil))

/-- Claim C1: chunk-split invariance of the stream parser.  For every way
of splitting the input text into chunks, feeding the chunks to the parsing
loop of onAnalyzeRepo emits exactly the same sequence of records, in the
same order and with the same contents, as feeding the whole concatenated
text as one chunk (this covers every well-formed input and in particular a
single valid object split across arbitrary chunk boundaries, which yields
exactly one emitted record).  The second conjunct checks the spec's
concrete scenario: the three chunks splitting two objects mid-string and
mid-object yield exactly the two records. -/
theorem spec_c1_chunk_invariance :
    (∀ cs : List (List Char), (runChunks cs).out = (runChunks [cs.flatten]).out) ∧
    (runChunks scenarioChunks).out = [recScenA, recScenB] := by
  constructor
  · intro cs
    rw [runChunks_out_join cs, runChunks_out_join [cs.flatten]]
    simp
  · rfl

/-! ## Claim C8 -/

theorem runChunks0_out_mono : ∀ (cs : List (List Char)) (st : PState),
    ∃ es, (runChunks0 st cs).out = st.out ++ es := by
  intro cs
  induction cs with
  | nil => intro st; exact ⟨[], by simp [runChunks0]⟩
  | cons c cs ih =>
    intro st
    obtain ⟨es, hes⟩ := ih (step st c)
    refine ⟨(extract (st.buf ++ c)).2 ++ es, ?_⟩
    show (runChunks0 (step st c) cs).out = _
    rw [hes]
    simp [step, List.append_assoc]

/-- A chunk holding two valid objects with the same path. -/
def dupChunk : List Char :=
  String.toList "\x7b\"path\":\"p\",\"content\":\"1\"\x7d\x7b\"path\":\"p\",\"content\":\"2\"\x7d"

def recDupA : JsonValue :=
  .jobj (.fcons pathKey (.jstr (String.toList "p"))
    (.fcons contentKey (.jstr (String.toList "1")) .fnil))

def recDupB : JsonValue :=
  .jobj (.fcons pathKey (.jstr (String.toList "p"))
    (.fcons contentKey (.jstr (String.toList "2")) .fnil))

/-- Claim C8: the accumulated record sequence is append-only (every chunk
leaves the previous records in place, in order, and only appends), and
accepted records with the same path are all kept: the concrete run shows
two records with equal `path` both present, the later one after (not in
place of) the earlier one. -/
theorem spec_c8_no_dedup :
    (∀ (st : PState) (cs : List (List Char)),
      ∃ es, (runChunks0 st cs).out = st.out ++ es) ∧
    (runChunks [dupChunk]).out = [recDupA, recDupB] ∧
    jsGetField recDupA pathKey = jsGetField recDupB pathKey := by
  refine ⟨fun st cs => runChunks0_out_mono cs st, rfl, rfl⟩

/-! ## Claim C3 -/

/-- The shape every post-pass buffer has: either no opening brace at all
(retained noise or malformed text), or it starts at an opening brace whose
object is still incomplete (the brace scan finds no end). -/
def residOk (r : List Char) : Bool :=
  match firstBrace r with
  | none => true
  | some i => decide (i = 0) && (findEnd r 0 0).isNone

theorem extract_residOk : ∀ (n : Nat) (b : List Char), b.length ≤ n →
    residOk (extract b).1 = true := by
  intro n
  induction n with
  | zero =>
    intro b hb
    have hbnil : b = [] := List.eq_nil_of_length_eq_zero (Nat.le_zero.mp hb)
    subst hbnil
    rfl
  | succ n ih =>
    intro b hb
    cases hfb : firstBrace b with
    | none =>
      rw [extract_eq_noBrace hfb]
      simp [residOk, firstBrace_noBraceResidue hfb]
    | some i =>
      cases hfe : findEnd (b.drop i) 0 0 with
      | none =>
        rw [extract_eq_incomplete hfb hfe]
        obtain ⟨t, ht⟩ := firstBrace_drop hfb
        have h0 : firstBrace (b.drop i) = some 0 := by
          rw [ht]; simp [firstBrace]
        simp [residOk, h0, hfe]
      | some e =>
        rw [extract_eq_candidate hfb hfe]
        have hi := firstBrace_some_lt hfb
        have he := findEnd_some_bound (b.drop i) 0 0 e hfe
        simp only [List.length_drop, Nat.zero_add] at he
        exact ih ((b.drop i).drop (e + 1))
          (by simp only [List.length_drop]; omega)

theorem runChunks0_residOk : ∀ (cs : List (List Char)) (st : PState),
    residOk st.buf = true → residOk (runChunks0 st cs).buf = true := by
  intro cs
  induction cs with
  | nil => intro st h; exact h
  | cons c cs ih =>
    intro st _
    exact ih (step st c) (extract_residOk (st.buf ++ c).length (st.buf ++ c) le_rfl)

/-- Claim C3, amended: after every extraction pass the buffer either
contains no opening brace (it is retained noise, e.g. a stray closing
brace or stripped fence residue) or is exactly the prefix of one
still-incomplete candidate object, starting at its opening brace. -/
theorem spec_c3_buffer_invariant : ∀ (cs : List (List Char)),
    residOk (runChunks cs).buf = true := by
  intro cs
  exact runChunks0_residOk cs ⟨[], []⟩ rfl

/-- A necessary condition, in the spec's terms, for a text to be a prefix
of (the text of) a JSON object: it is empty, or all whitespace, or its
first non-whitespace character is the opening brace (a JSON object is
whitespace followed by `\x7b` followed by more text, and every prefix of
it is cut from that shape). -/
def specObjPrefixNec (b : List Char) : Bool :=
  b.isEmpty ||
    (match skipJsonWs b with
     | [] => true
     | c :: _ => decide (c = lbrace))

/-- Counterexample to claim C3 as stated: after feeding the single chunk
consisting of one closing brace, the pass leaves the buffer equal to that
closing brace (the code keeps a buffer that has a closing brace but no
opening brace untouched), which is neither empty nor a prefix of any
still-incomplete JSON object. -/
theorem spec_c3_counterexample :
    (runChunks [String.toList "\x7d"]).buf = String.toList "\x7d" ∧
    specObjPrefixNec (String.toList "\x7d") = false := ⟨rfl, rfl⟩

/-! ## Claim C4 -/

/-- Claim C4: when the stream ends with residual content in the buffer,
the component terminates without raising (modelled by `streamEnd`
returning `Except.ok`, mirroring that lines 142-147 run no failing
operation), the residue is discarded, and the resulting record sequence is
exactly the records completed before stream end (the single-pass
extraction of the whole streamed text). -/
theorem spec_c4_trailing_truncation : ∀ (cs : List (List Char)),
    (runChunks cs).buf ≠ [] →
    streamEnd (runChunks cs) = Except.ok (extract cs.flatten).2 := by
  intro cs _
  simp [streamEnd, runChunks_out_join cs]

def trailingChunks : List (List Char) :=
  [String.toList "\x7b\"path\":\"a\",\"content\":\"b\"\x7d\x7b\"pa"]

theorem spec_c4_trailing_truncation_witness :
    (runChunks trailingChunks).buf ≠ [] ∧
    streamEnd (runChunks trailingChunks) =
      Except.ok (extract trailingChunks.flatten).2 :=
  ⟨by decide, spec_c4_trailing_truncation trailingChunks (by decide)⟩

/-! ## Claim C2 -/

/-- The candidate-validity condition in the spec's words: the candidate
parses as a JSON object with exactly the two string fields `path` and
`content`, both non-empty. -/
def specExactlyTwo (s : List Char) : Bool :=
  match jsonParse s with
  | some (.jobj (.fcons k1 (.jstr v1) (.fcons k2 (.jstr v2) .fnil))) =>
    ((k1 == pathKey && k2 == contentKey) || (k1 == contentKey && k2 == pathKey)) &&
      !v1.isEmpty && !v2.isEmpty
  | _ => false

/-- A candidate with a third field besides path and content. -/
def extraFieldCand : List Char :=
  String.toList "\x7b\"path\":\"a\",\"content\":\"b\",\"x\":1\x7d"

/-- Counterexample to claim C2 as stated: a candidate with an extra third
field is not a JSON object with exactly the two expected fields, yet the
code emits a record for it (JSON.parse accepts it and both properties are
truthy), so the claimed equivalence fails in the only-if direction. -/
theorem spec_c2_counterexample :
    (emitCandidate extraFieldCand).isSome = true ∧
    specExactlyTwo extraFieldCand = false ∧
    (runChunks [extraFieldCand]).out.length = 1 := ⟨rfl, rfl, rfl⟩

/-- Claim C2, amended: a balanced candidate carved from the buffer emits a
record if and only if `JSON.parse` succeeds on it and both the `path` and
the `content` property of the parsed value are truthy (so extra fields are
allowed, and any truthy non-string values are accepted too); otherwise the
candidate is dropped and, either way, the pass continues on the remaining
buffer — no stream-level failure arises from an unparseable candidate. -/
theorem spec_c2_candidate_validation :
    (∀ (cand rest t : List Char),
      cand = lbrace :: t → findEnd cand 0 0 = some (cand.length - 1) →
      extract (cand ++ rest) =
        ((extract rest).1, (emitCandidate cand).toList ++ (extract rest).2)) ∧
    (∀ (s : List Char) (v : JsonValue),
      emitCandidate s = some v ↔
        (jsonParse s = some v ∧
         truthyProp (jsGetField v pathKey) = true ∧
         truthyProp (jsGetField v contentKey) = true)) := by
  constructor
  · intro cand rest t hc hfe
    have h0 : firstBrace (cand ++ rest) = some 0 := by
      rw [hc]; simp [firstBrace]
    have hlen : 1 ≤ cand.length := by rw [hc]; simp
    have hfe2 : findEnd ((cand ++ rest).drop 0) 0 0 = some (cand.length - 1) := by
      rw [List.drop_zero]; exact findEnd_append_some _ rest _ _ _ hfe
    rw [extract_eq_candidate h0 hfe2]
    have he1 : cand.length - 1 + 1 = cand.length := by omega
    rw [List.drop_zero, he1, List.take_left, List.drop_left]
  · intro s v
    unfold emitCandidate
    cases hp : jsonParse s with
    | none => simp
    | some w =>
      show (if (truthyProp (jsGetField w pathKey) &&
            truthyProp (jsGetField w contentKey)) = true
          then some w else none) = some v ↔ _
      by_cases hq : (truthyProp (jsGetField w pathKey) &&
          truthyProp (jsGetField w contentKey)) = true
      · rw [if_pos hq]
        simp only [Bool.and_eq_true] at hq
        constructor
        · intro hv
          cases hv
          exact ⟨rfl, hq.1, hq.2⟩
        · rintro ⟨hv, _, _⟩
          cases hv
          rfl
      · rw [if_neg hq]
        constructor
        · intro hv; exact absurd hv (by simp)
        · rintro ⟨hv, h1, h2⟩
          cases hv
          exact absurd (by rw [h1, h2]; rfl) hq

/-- The candidate used to instantiate the amended claim. -/
def plainCand : List Char := String.toList "\x7b\"path\":\"a\",\"content\":\"b\"\x7d"

theorem spec_c2_candidate_validation_witness :
    plainCand = lbrace :: String.toList "\"path\":\"a\",\"content\":\"b\"\x7d" ∧
    findEnd plainCand 0 0 = some (plainCand.length - 1) ∧
    extract (plainCand ++ []) =
      ((extract ([] : List Char)).1,
        (emitCandidate plainCand).toList ++ (extract ([] : List Char)).2) :=
  ⟨rfl, rfl, spec_c2_candidate_validation.1 plainCand []
    (String.toList "\"path\":\"a\",\"content\":\"b\"\x7d") rfl rfl⟩

/-! ## Claims C6 and C7 -/

/-- Claim C6: a response with any status below 500 — in particular 404,
401 and 403 — is returned by performFetch after exactly one fetch call and
no backoff wait, for any remaining-retries count; and a repository-details
request answered 404 makes getDefaultBranch fail with the distinct
not-found message after exactly one attempt and zero waits. -/
theorem spec_c6_no_retry_on_404 :
    (∀ (f : Nat → FetchOutcome) (i s retries backoff : Nat),
      f i = .resp s → s < 500 →
      performFetch f i retries backoff = (.ok s, 1, [])) ∧
    (∀ (f : Nat → FetchOutcome) (db : Option String),
      f 0 = .resp 404 →
      getDefaultBranch f db = (.error notFoundMsg, 1, [])) := by
  have h1 : ∀ (f : Nat → FetchOutcome) (i s retries backoff : Nat),
      f i = .resp s → s < 500 →
      performFetch f i retries backoff = (.ok s, 1, []) := by
    intro f i s retries backoff hf hs
    cases retries with
    | zero => simp [performFetch, hf]
    | succ r =>
      simp only [performFetch, hf]
      rw [if_neg (by omega)]
  refine ⟨h1, ?_⟩
  intro f db hf
  unfold getDefaultBranch
  rw [h1 f 0 404 3 300 hf (by omega)]
  simp

theorem spec_c6_no_retry_on_404_witness :
    ((fun _ => FetchOutcome.resp 404) 0 = FetchOutcome.resp 404) ∧
    getDefaultBranch (fun _ => FetchOutcome.resp 404) none =
      (.error notFoundMsg, 1, []) :=
  ⟨rfl, spec_c6_no_retry_on_404.2 (fun _ => FetchOutcome.resp 404) none rfl⟩

/-- Claim C7: with the first two attempts answering 503 and the third 200,
performFetch (called with its default 3 retries and 300ms base backoff)
succeeds after exactly two waits, 300ms then 600ms — the second strictly
longer, the delay doubling; and for every environment the number of fetch
attempts is bounded by the retry ceiling plus one. -/
theorem spec_c7_backoff :
    (∀ (f : Nat → FetchOutcome),
      f 0 = .resp 503 → f 1 = .resp 503 → f 2 = .resp 200 →
      performFetch f 0 3 300 = (.ok 200, 3, [300, 600]) ∧ 300 < 600) ∧
    (∀ (g : Nat → FetchOutcome) (i retries backoff : Nat),
      (performFetch g i retries backoff).2.1 ≤ retries + 1) := by
  constructor
  · intro f h0 h1 h2
    refine ⟨?_, by omega⟩
    simp [performFetch, h0, h1, h2]
  · intro g i retries
    induction retries generalizing i with
    | zero =>
      intro backoff
      cases hg : g i <;> simp [performFetch, hg]
    | succ r ih =>
      intro backoff
      cases hg : g i with
      | resp s =>
        by_cases hs : 500 ≤ s
        · have := ih (i + 1) (backoff * 2)
          simp only [performFetch, hg, if_pos hs]
          omega
        · simp [performFetch, hg, if_neg hs]
      | netFail =>
        have := ih (i + 1) (backoff * 2)
        simp only [performFetch, hg]
        omega
      | thrown m => simp [performFetch, hg]

/-- The 503/503/200 environment used to instantiate claim C7. -/
def retryEnvC7 : Nat → FetchOutcome :=
  fun n => if n = 0 then .resp 503 else if n = 1 then .resp 503 else .resp 200

theorem spec_c7_backoff_witness :
    retryEnvC7 0 = .resp 503 ∧ retryEnvC7 1 = .resp 503 ∧ retryEnvC7 2 = .resp 200 ∧
    (performFetch retryEnvC7 0 3 300 = (.ok 200, 3, [300, 600]) ∧ 300 < 600) :=
  ⟨rfl, rfl, rfl, spec_c7_backoff.1 retryEnvC7 rfl rfl rfl⟩

/-! ## Claim C10 -/

theorem isInProgressStep_true {s : StatusStep}
    (h : isInProgressStep s = true) : s.status = .inProgress := by
  cases hs : s.status <;> simp [isInProgressStep, hs] at h ⊢

/-- The relation between a step before and after handleError: identity
except that an in-progress step may be marked error. -/
def stepFrame (old new : StatusStep) : Prop :=
  new.id = old.id ∧ new.text = old.text ∧
  (old.status ≠ .inProgress → new = old) ∧
  (old.status = .inProgress → new.status = old.status ∨ new.status = .error)

/-- Claim C10: handleError modifies only the app state (to error), the
error message, and the status of the step that was in-progress, if any;
the accumulated analysis text, re-implemented records, fetched files and
expansion state are left untouched, and every step whose status was not
in-progress is unchanged. -/
theorem spec_c10_handle_error_frame : ∀ (m : AppModel) (msg : String),
    (m.statusSteps.map (fun s => s.id)).Nodup →
    (handleError m msg).appState = .error ∧
    (handleError m msg).errorMessage = some msg ∧
    (handleError m msg).analysisResult = m.analysisResult ∧
    (handleError m msg).reimplementedFiles = m.reimplementedFiles ∧
    (handleError m msg).fetchedFiles = m.fetchedFiles ∧
    (handleError m msg).expandedFile = m.expandedFile ∧
    List.Forall₂ stepFrame m.statusSteps (handleError m msg).statusSteps := by
  intro m msg hnd
  unfold handleError
  cases hf : m.statusSteps.find? isInProgressStep with
  | none =>
    refine ⟨rfl, rfl, rfl, rfl, rfl, rfl, ?_⟩
    exact List.forall₂_same.mpr fun a _ =>
      ⟨rfl, rfl, fun _ => rfl, fun _ => Or.inl rfl⟩
  | some t =>
    have htmem : t ∈ m.statusSteps := List.mem_of_find?_eq_some hf
    have htst : t.status = .inProgress :=
      isInProgressStep_true (List.find?_some hf)
    refine ⟨rfl, rfl, rfl, rfl, rfl, rfl, ?_⟩
    show List.Forall₂ stepFrame m.statusSteps
      (m.statusSteps.map fun s =>
        if s.id = t.id then { s with status := StStatus.error } else s)
    rw [List.forall₂_map_right_iff]
    refine List.forall₂_same.mpr fun s hs => ?_
    by_cases hid : s.id = t.id
    · have hst : s = t := List.inj_on_of_nodup_map hnd hs htmem hid
      subst hst
      rw [if_pos rfl]
      exact ⟨rfl, rfl, fun hne => absurd htst hne, fun _ => Or.inr rfl⟩
    · rw [if_neg hid]
      exact ⟨rfl, rfl, fun _ => rfl, fun _ => Or.inl rfl⟩

/-- A mid-run model: stage 3 in progress, earlier stages complete,
accumulated data present. -/
def midRunModel : AppModel :=
  { initialModel with
    appState := .analyzed,
    analysisResult := some "report",
    fetchedFiles := some [⟨"a.ts", "x"⟩],
    statusSteps :=
      [⟨1, "Download and read all repository files", .complete⟩,
       ⟨2, "AI selects relevant files for analysis", .complete⟩,
       ⟨3, "AI analyzes code architecture", .inProgress⟩,
       ⟨4, "AI re-implements the project", .pending⟩,
       ⟨5, "Ready for download", .pending⟩] }

theorem spec_c10_handle_error_frame_witness :
    (midRunModel.statusSteps.map (fun s => s.id)).Nodup ∧
    ((handleError midRunModel "boom").appState = .error ∧
     (handleError midRunModel "boom").errorMessage = some "boom" ∧
     (handleError midRunModel "boom").analysisResult = midRunModel.analysisResult ∧
     (handleError midRunModel "boom").reimplementedFiles =
       midRunModel.reimplementedFiles ∧
     (handleError midRunModel "boom").fetchedFiles = midRunModel.fetchedFiles ∧
     (handleError midRunModel "boom").expandedFile = midRunModel.expandedFile ∧
     List.Forall₂ stepFrame midRunModel.statusSteps
       (handleError midRunModel "boom").statusSteps) :=
  ⟨by decide, spec_c10_handle_error_frame midRunModel "boom" (by decide)⟩

/-! ## Claim C5 -/

/-- The transition relation the claim asserts for every stage: pending may
only move to in-progress, in-progress to complete or error, and complete
and error are terminal (a stage also may stay put). -/
def specStageOk : StStatus → StStatus → Bool
  | .pending, .pending => true
  | .pending, .inProgress => true
  | .inProgress, .inProgress => true
  | .inProgress, .complete => true
  | .inProgress, .error => true
  | .complete, .complete => true
  | .error, .error => true
  | _, _ => false

/-- All adjacent transitions of a status sequence satisfy specStageOk. -/
def stageTraceOk : List StStatus → Bool
  | [] => true
  | [_] => true
  | a :: b :: tl => specStageOk a b && stageTraceOk (b :: tl)

/-- The transitions stage 5 actually performs: it is never in progress and
jumps from pending straight to complete. -/
def specStage5Ok : StStatus → StStatus → Bool
  | .pending, .pending => true
  | .pending, .complete => true
  | .complete, .complete => true
  | _, _ => false

def stage5TraceOk : List StStatus → Bool
  | [] => true
  | [_] => true
  | a :: b :: tl => specStage5Ok a b && stage5TraceOk (b :: tl)

def countInProgress (steps : List StatusStep) : Nat :=
  (steps.filter isInProgressStep).length

/-- Every snapshot of a run has at most one in-progress stage. -/
def atMostOneInProgress (env : Env) : Bool :=
  (runTrace env).all (fun m => decide (countInProgress m.statusSteps ≤ 1))

/-- A fully successful run. -/
def okRunEnv : Env :=
  ⟨"u", .ok (), .ok [⟨"a", "c"⟩], .ok ["a"], [], none, [], none⟩

/-- Counterexample to claim C5 as stated: in a successful run, stage 5
moves directly from pending to complete (line 146 sets it complete with no
preceding in-progress), so its status trace violates the claimed
pending to in-progress to terminal discipline. -/
theorem spec_c5_counterexample :
    stageTraceOk (stageTrace okRunEnv 5) = false := rfl

/-- Claim C5, amended: stages 1-4 respect the claimed discipline
(pending to in-progress to complete or error, terminal states never left,
in-progress never skipped); stage 5 is the exception: it is never
in-progress and moves from pending directly to complete on success (and
thus is also never marked error); at most one stage is in progress in
every snapshot; and starting a new run resets all five stages to pending
and clears the accumulated data. -/
theorem spec_c5_stage_transitions : ∀ env : Env,
    (stageTraceOk (stageTrace env 1) = true ∧
     stageTraceOk (stageTrace env 2) = true ∧
     stageTraceOk (stageTrace env 3) = true ∧
     stageTraceOk (stageTrace env 4) = true) ∧
    stage5TraceOk (stageTrace env 5) = true ∧
    atMostOneInProgress env = true ∧
    (∀ m : AppModel, (resetState m).statusSteps = initialSteps ∧
      (resetState m).analysisResult = none ∧
      (resetState m).reimplementedFiles = none ∧
      (resetState m).fetchedFiles = none ∧
      (resetState m).errorMessage = none) := by
  intro env
  obtain ⟨url, up, rf, rel, ac, ae, rc, re⟩ := env
  by_cases hurl : url = ""
  · subst hurl
    exact ⟨⟨rfl, rfl, rfl, rfl⟩, rfl, rfl, fun m => ⟨rfl, rfl, rfl, rfl, rfl⟩⟩
  · simp only [stageTrace, atMostOneInProgress, runTrace, if_neg hurl]
    cases up with
    | error e =>
      exact ⟨⟨rfl, rfl, rfl, rfl⟩, rfl, rfl, fun m => ⟨rfl, rfl, rfl, rfl, rfl⟩⟩
    | ok u =>
      cases rf with
      | error e =>
        exact ⟨⟨rfl, rfl, rfl, rfl⟩, rfl, rfl, fun m => ⟨rfl, rfl, rfl, rfl, rfl⟩⟩
      | ok files =>
        by_cases hlen : files.length = 0
        · simp only [if_pos hlen]
          exact ⟨⟨rfl, rfl, rfl, rfl⟩, rfl, rfl, fun m => ⟨rfl, rfl, rfl, rfl, rfl⟩⟩
        · simp only [if_neg hlen]
          cases rel with
          | error e =>
            exact ⟨⟨rfl, rfl, rfl, rfl⟩, rfl, rfl, fun m => ⟨rfl, rfl, rfl, rfl, rfl⟩⟩
          | ok paths =>
            cases ae with
            | some e =>
              exact ⟨⟨rfl, rfl, rfl, rfl⟩, rfl, rfl, fun m => ⟨rfl, rfl, rfl, rfl, rfl⟩⟩
            | none =>
              cases re with
              | some e =>
                exact ⟨⟨rfl, rfl, rfl, rfl⟩, rfl, rfl,
                  fun m => ⟨rfl, rfl, rfl, rfl, rfl⟩⟩
              | none =>
                exact ⟨⟨rfl, rfl, rfl, rfl⟩, rfl, rfl,
                  fun m => ⟨rfl, rfl, rfl, rfl, rfl⟩⟩

/-! ## Claim C9 -/

/-- The shape of the five statuses after a fatal error: a prefix of
completed stages, then at most one stage marked error, then only pending
stages (the aborted remainder); no stage is left in progress. -/
def completesThen : List StStatus → Bool
  | [] => true
  | .complete :: tl => completesThen tl
  | .error :: tl => tl.all (fun s => decide (s = .pending))
  | .pending :: tl => tl.all (fun s => decide (s = .pending))
  | .inProgress :: _ => false

/-- Claim C9: whenever a run ends in the error state, a single
human-readable message is surfaced, the remaining stages are aborted
(every stage after the failure point stays pending, the stage that was in
progress — if any — is marked error, none is left in progress); and the
empty-repository case in particular fails with its own distinct message. -/
theorem spec_c9_fatal_error : ∀ env : Env,
    ((runFinal env).appState = .error →
      (runFinal env).errorMessage ≠ none ∧
      completesThen ((runFinal env).statusSteps.map (fun s => s.status)) = true) ∧
    (env.url ≠ "" → env.urlParse = .ok () → env.repoFiles = .ok [] →
      (runFinal env).appState = .error ∧
      (runFinal env).errorMessage = some emptyRepoMsg) := by
  intro env
  obtain ⟨url, up, rf, rel, ac, ae, rc, re⟩ := env
  by_cases hurl : url = ""
  · subst hurl
    exact ⟨fun _ => ⟨fun hn => Option.noConfusion hn, rfl⟩,
      fun h2 _ _ => absurd rfl h2⟩
  · simp only [runFinal, runTrace, if_neg hurl]
    cases up with
    | error e =>
      exact ⟨fun _ => ⟨fun hn => Option.noConfusion hn, rfl⟩,
        fun _ h3 _ => Except.noConfusion h3⟩
    | ok u =>
      cases rf with
      | error e =>
        exact ⟨fun _ => ⟨fun hn => Option.noConfusion hn, rfl⟩,
          fun _ _ h4 => Except.noConfusion h4⟩
      | ok files =>
        by_cases hlen : files.length = 0
        · simp only [if_pos hlen]
          exact ⟨fun _ => ⟨fun hn => Option.noConfusion hn, rfl⟩,
            fun _ _ _ => ⟨rfl, rfl⟩⟩
        · simp only [if_neg hlen]
          cases rel with
          | error e =>
            refine ⟨fun _ => ⟨fun hn => Option.noConfusion hn, rfl⟩,
              fun _ _ h4 => ?_⟩
            injection h4 with h5
            subst h5
            exact absurd rfl hlen
          | ok paths =>
            cases ae with
            | some e =>
              refine ⟨fun _ => ⟨fun hn => Option.noConfusion hn, rfl⟩,
                fun _ _ h4 => ?_⟩
              injection h4 with h5
              subst h5
              exact absurd rfl hlen
            | none =>
              cases re with
              | some e =>
                refine ⟨fun _ => ⟨fun hn => Option.noConfusion hn, rfl⟩,
                  fun _ _ h4 => ?_⟩
                injection h4 with h5
                subst h5
                exact absurd rfl hlen
              | none =>
                refine ⟨fun h => absurd h (fun hh => AppState.noConfusion hh),
                  fun _ _ h4 => ?_⟩
                injection h4 with h5
                subst h5
                exact absurd rfl hlen

/-- The empty-repository environment used to instantiate claim C9. -/
def emptyRepoEnv : Env := ⟨"u", .ok (), .ok [], .ok [], [], none, [], none⟩

theorem spec_c9_fatal_error_witness :
    (runFinal emptyRepoEnv).appState = .error ∧
    ((runFinal emptyRepoEnv).errorMessage ≠ none ∧
      completesThen ((runFinal emptyRepoEnv).statusSteps.map
        (fun s => s.status)) = true) ∧
    (runFinal emptyRepoEnv).errorMessage = some emptyRepoMsg :=
  ⟨rfl, (spec_c9_fatal_error emptyRepoEnv).1 rfl,
    ((spec_c9_fatal_error emptyRepoEnv).2 (by simp [emptyRepoEnv]) rfl rfl).2⟩
